import Mathlib

/-!
Shallow embedding of the model-architecture core of `src/models.py`:
`SkipConn`, `Fourier`, `Fourier2D`, `Taylor` and `CenteredLinearMap`.

Tensors are modelled row-wise: a sample is a `List ℝ`, a batch a
`List (List ℝ)`.  A `torch.nn.Linear` layer carries its configured input
and output widths together with weight/bias entries; applying it to a row
of the wrong width is the shape-mismatch fault of the underlying engine,
modelled as `none`.  Device placement (`.cuda()`) changes no numeric
value; for `CenteredLinearMap`, whose `map` re-places its buffers on
every call, the placement flag is threaded explicitly so that the
mutation the source performs is visible in the model.
-/

namespace NNFace

/-- A `torch.nn.Linear` layer: configured widths plus weight and bias
entries (`weight i j` is row `i`, column `j`). -/
structure Linear where
  inFeatures : ℕ
  outFeatures : ℕ
  weight : ℕ → ℕ → ℝ
  bias : ℕ → ℝ

/-- Apply a linear layer to one row: `y i = Σ_j w i j * x j + b i`.
The row's width must equal the configured `inFeatures`, otherwise the
underlying engine raises a shape-mismatch fault (`none`). -/
noncomputable def Linear.apply (l : Linear) (x : List ℝ) : Option (List ℝ) :=
  if x.length = l.inFeatures then
    some ((List.range l.outFeatures).map fun i =>
      (∑ j ∈ Finset.range l.inFeatures, l.weight i j * x.getD j 0) + l.bias i)
  else none

/-- `CenteredLinearMap.__init__` state: per-axis scale `m`, per-axis
offset `b`, the accelerator flag, and whether the buffers currently sit
on the accelerator (mutated by `map`). -/
structure CenteredLinearMap where
  m : ℝ × ℝ
  b : ℝ × ℝ
  use_cuda : Bool
  onCuda : Bool

/-- `CenteredLinearMap.__init__`: `x_m = x_size/(xmax-xmin)` when a
target size is given, else `1`; `x_b = -(xmin+xmax)*x_m/2`; same per the
y axis. -/
noncomputable def CenteredLinearMap.make (xmin xmax ymin ymax : ℝ)
    (x_size y_size : Option ℝ) (use_cuda : Bool) : CenteredLinearMap :=
  let x_m : ℝ := match x_size with
    | some s => s / (xmax - xmin)
    | none => 1
  let y_m : ℝ := match y_size with
    | some s => s / (ymax - ymin)
    | none => 1
  { m := (x_m, y_m)
    b := (-(xmin + xmax) * x_m / 2, -(ymin + ymax) * y_m / 2)
    use_cuda := use_cuda
    onCuda := false }

/-- The device-placement side effect of `map`: when `use_cuda` is set the
buffers are (re)placed on the accelerator; numeric values are untouched. -/
def CenteredLinearMap.placed (lm : CenteredLinearMap) : CenteredLinearMap :=
  if lm.use_cuda then { lm with onCuda := true } else lm

/-- The numeric content of `CenteredLinearMap.map` on one 2-axis point:
`m ⊙ x + b`. -/
noncomputable def CenteredLinearMap.mapPair (lm : CenteredLinearMap) (x : ℝ × ℝ) : ℝ × ℝ :=
  (lm.m.1 * x.1 + lm.b.1, lm.m.2 * x.2 + lm.b.2)

/-- `CenteredLinearMap.map` with its state threaded: first the buffers
are placed (`self.m = self.m.cuda()` ...), then `m*x + b` is returned. -/
noncomputable def CenteredLinearMap.mapState (lm : CenteredLinearMap) (x : ℝ × ℝ) :
    CenteredLinearMap × (ℝ × ℝ) :=
  (lm.placed, lm.placed.mapPair x)

/-- `CenteredLinearMap.map` on one row of a batch: `m` and `b` hold one
scalar per coordinate axis, so the row must have the two axis entries. -/
noncomputable def CenteredLinearMap.mapList (lm : CenteredLinearMap) (x : List ℝ) :
    Option (List ℝ) :=
  match x with
  | [a, c] => some [lm.m.1 * a + lm.b.1, lm.m.2 * c + lm.b.2]
  | _ => none

/-- `SkipConn` module state: input layer, hidden layers, output layer,
activation, optional coordinate normalizer. -/
structure SkipConn where
  inLayer : Linear
  hidden : List Linear
  outLayer : Linear
  activation : ℝ → ℝ
  linmap : Option CenteredLinearMap

/-- `SkipConn.__init__`: the input layer maps `init_size` to
`hidden_size`; hidden layer `i` has input width
`hidden_size*2 + init_size` for `i > 0` and `hidden_size + init_size`
for `i = 0`; the output layer maps `hidden_size*2 + init_size` to `1`.
`W l` / `B l` supply the (externally initialized) weights of layer `l`. -/
noncomputable def SkipConn.make (hidden_size num_hidden_layers init_size : ℕ)
    (linmap : Option CenteredLinearMap) (act : ℝ → ℝ)
    (W : ℕ → ℕ → ℕ → ℝ) (B : ℕ → ℕ → ℝ) : SkipConn :=
  { inLayer := ⟨init_size, hidden_size, W 0, B 0⟩
    hidden := (List.range num_hidden_layers).map fun i =>
      ⟨if 0 < i then hidden_size * 2 + init_size else hidden_size + init_size,
       hidden_size, W (i + 1), B (i + 1)⟩
    outLayer := ⟨hidden_size * 2 + init_size, 1, W (num_hidden_layers + 1), B (num_hidden_layers + 1)⟩
    activation := act
    linmap := linmap }

/-- The hidden-layer loop of `SkipConn.forward`: for each layer,
`combined = cat(cur, prev, x)`, then `prev = cur`,
`cur = activation(layer(combined))`. -/
noncomputable def SkipConn.hiddenPass (act : ℝ → ℝ) (x : List ℝ) :
    List Linear → List ℝ × List ℝ → Option (List ℝ × List ℝ)
  | [], cp => some cp
  | layer :: rest, (cur, prev) =>
      (layer.apply (cur ++ prev ++ x)).bind fun z =>
        SkipConn.hiddenPass act x rest (z.map act, cur)

/-- `SkipConn.forward` on one row: optional linear map, then
`cur = activation(inLayer(x))`, `prev` empty, the hidden-layer loop, and
finally `(tanh(outLayer(cat(cur, prev, x))) + 1) / 2`. -/
noncomputable def SkipConn.forward (s : SkipConn) (x0 : List ℝ) : Option (List ℝ) :=
  ((match s.linmap with
    | some lm => lm.mapList x0
    | none => some x0) : Option (List ℝ)).bind fun x =>
  (s.inLayer.apply x).bind fun z =>
  (SkipConn.hiddenPass s.activation x s.hidden (z.map s.activation, ([] : List ℝ))).bind fun cp =>
  (s.outLayer.apply (cp.1 ++ cp.2 ++ x)).map fun y =>
  y.map fun v => (Real.tanh v + 1) / 2

/-- `SkipConn.forward` on a whole batch, row by row. -/
noncomputable def SkipConn.forwardBatch (s : SkipConn) (xs : List (List ℝ)) :
    Option (List (List ℝ)) :=
  xs.mapM s.forward

/-- `nn.LeakyReLU` with its default negative slope `0.01`; the
activation the Fourier wrappers pass to their inner `SkipConn`. -/
noncomputable def leakyRelu (v : ℝ) : ℝ :=
  if 0 ≤ v then v else 0.01 * v

/-- The Gauss error function, `erf z = 2/√π ∫_0^z exp(-t²) dt`. -/
noncomputable def erf (z : ℝ) : ℝ :=
  2 / Real.sqrt Real.pi * ∫ t in (0 : ℝ)..z, Real.exp (-t ^ 2)

/-- `nn.GELU`, the default activation of `SkipConn`:
`gelu v = v * Φ(v) = v * (1 + erf(v/√2)) / 2`. -/
noncomputable def gelu (v : ℝ) : ℝ :=
  v * (1 + erf (v / Real.sqrt 2)) / 2

/-- `torch.arange(1, fourier_order + 1)`: harmonic orders `1..K`. -/
noncomputable def fourierOrders (fourier_order : ℕ) : List ℝ :=
  (List.range fourier_order).map fun k : ℕ => (k : ℝ) + 1

/-- `Fourier` module state. -/
structure Fourier where
  fourier_order : ℕ
  inner_model : SkipConn
  linmap : Option CenteredLinearMap
  orders : List ℝ

/-- `Fourier.__init__`: inner `SkipConn` with
`init_size = fourier_order*4 + 2` and `LeakyReLU` activation; orders
`1..fourier_order`. -/
noncomputable def Fourier.make (fourier_order hidden_size num_hidden_layers : ℕ)
    (linmap : Option CenteredLinearMap) (W : ℕ → ℕ → ℕ → ℝ) (B : ℕ → ℕ → ℝ) : Fourier :=
  { fourier_order := fourier_order
    inner_model := SkipConn.make hidden_size num_hidden_layers (fourier_order * 4 + 2)
      none leakyRelu W B
    linmap := linmap
    orders := fourierOrders fourier_order }

/-- The feature expansion of `Fourier.forward`: per scalar `v` of the
row, `cat(sin(orders*v), cos(orders*v), v)` along the unsqueezed last
dimension, then flattened row-major. -/
noncomputable def fourierFeatures (orders : List ℝ) (x : List ℝ) : List ℝ :=
  x.flatMap fun v =>
    (orders.map fun k => Real.sin (k * v)) ++ (orders.map fun k => Real.cos (k * v)) ++ [v]

/-- `Fourier.forward` on one row: optional linear map, feature
expansion, then the inner `SkipConn`. -/
noncomputable def Fourier.forward (f : Fourier) (x0 : List ℝ) : Option (List ℝ) :=
  (match f.linmap with
    | some lm => lm.mapList x0
    | none => some x0).bind fun x =>
  f.inner_model.forward (fourierFeatures f.orders x)

/-- `torch.arange(0, fourier_order)`: 2D harmonic orders `0..K-1`. -/
noncomputable def fourier2DOrders (fourier_order : ℕ) : List ℝ :=
  (List.range fourier_order).map fun k : ℕ => (k : ℝ)

/-- `Fourier2D` module state. -/
structure Fourier2D where
  fourier_order : ℕ
  inner_model : SkipConn
  linmap : Option CenteredLinearMap
  orders : List ℝ

/-- `Fourier2D.__init__`: inner `SkipConn` with
`init_size = fourier_order²*4 + 2` and `LeakyReLU` activation; orders
`0..fourier_order-1`. -/
noncomputable def Fourier2D.make (fourier_order hidden_size num_hidden_layers : ℕ)
    (linmap : Option CenteredLinearMap) (W : ℕ → ℕ → ℕ → ℝ) (B : ℕ → ℕ → ℝ) : Fourier2D :=
  { fourier_order := fourier_order
    inner_model := SkipConn.make hidden_size num_hidden_layers
      (fourier_order * fourier_order * 4 + 2) none leakyRelu W B
    linmap := linmap
    orders := fourier2DOrders fourier_order }

/-- The feature expansion of `Fourier2D.forward` on one 2-axis point:
the raw point first, then for every order pair `(n, m)` the four
cross products `cos·cos, cos·sin, sin·cos, sin·sin`. -/
noncomputable def fourier2DFeaturesPair (orders : List ℝ) (x : ℝ × ℝ) : List ℝ :=
  [x.1, x.2] ++ orders.flatMap fun n => orders.flatMap fun m =>
    [Real.cos (n * x.1) * Real.cos (m * x.2),
     Real.cos (n * x.1) * Real.sin (m * x.2),
     Real.sin (n * x.1) * Real.cos (m * x.2),
     Real.sin (n * x.1) * Real.sin (m * x.2)]

/-- `Fourier2D.forward` on one 2-axis point. -/
noncomputable def Fourier2D.forward (f : Fourier2D) (x0 : ℝ × ℝ) : Option (List ℝ) :=
  let x := match f.linmap with
    | some lm => lm.mapPair x0
    | none => x0
  f.inner_model.forward (fourier2DFeaturesPair f.orders x)

/-- `Taylor` module state. -/
structure Taylor where
  taylor_order : ℕ
  linmap : Option CenteredLinearMap
  inner_model : SkipConn

/-- `Taylor.__init__`: inner `SkipConn` with
`init_size = taylor_order*2 + 2` and the default `GELU` activation. -/
noncomputable def Taylor.make (taylor_order hidden_size num_hidden_layers : ℕ)
    (linmap : Option CenteredLinearMap) (W : ℕ → ℕ → ℕ → ℝ) (B : ℕ → ℕ → ℝ) : Taylor :=
  { taylor_order := taylor_order
    linmap := linmap
    inner_model := SkipConn.make hidden_size num_hidden_layers (taylor_order * 2 + 2)
      none gelu W B }

/-- The feature expansion of `Taylor.forward`: `series = [x]`, then
`x**n` appended for `n = 1..taylor_order`, concatenated along the
feature dimension. -/
noncomputable def taylorFeatures (taylor_order : ℕ) (x : List ℝ) : List ℝ :=
  x ++ (List.range taylor_order).flatMap fun n => x.map fun v => v ^ (n + 1)

/-- `Taylor.forward` on one row. -/
noncomputable def Taylor.forward (t : Taylor) (x0 : List ℝ) : Option (List ℝ) :=
  (match t.linmap with
    | some lm => lm.mapList x0
    | none => some x0).bind fun x =>
  t.inner_model.forward (taylorFeatures t.taylor_order x)

/-- All-zero weight supply, for concrete instances. -/
def W0 : ℕ → ℕ → ℕ → ℝ := fun _ _ _ => 0

/-- All-zero bias supply, for concrete instances. -/
def B0 : ℕ → ℕ → ℝ := fun _ _ => 0

/- ### Helper lemmas -/

theorem tanh_lt_one (y : ℝ) : Real.tanh y < 1 := by
  rw [Real.tanh_eq_sinh_div_cosh]
  exact (div_lt_one (Real.cosh_pos y)).mpr (Real.sinh_lt_cosh y)

theorem neg_one_lt_tanh (y : ℝ) : -1 < Real.tanh y := by
  rw [Real.tanh_eq_sinh_div_cosh, lt_div_iff₀ (Real.cosh_pos y)]
  have h := Real.sinh_lt_cosh (-y)
  rw [Real.sinh_neg, Real.cosh_neg] at h
  linarith

theorem Linear.apply_of_length (l : Linear) (x : List ℝ) (hx : x.length = l.inFeatures) :
    l.apply x = some ((List.range l.outFeatures).map fun i =>
      (∑ j ∈ Finset.range l.inFeatures, l.weight i j * x.getD j 0) + l.bias i) := by
  simp [Linear.apply, hx]

theorem Linear.apply_of_length_ne (l : Linear) (x : List ℝ) (hx : x.length ≠ l.inFeatures) :
    l.apply x = none := by
  simp [Linear.apply, hx]

theorem Linear.length_of_apply (l : Linear) (x ys : List ℝ) (h : l.apply x = some ys) :
    ys.length = l.outFeatures := by
  unfold Linear.apply at h
  split at h
  · injection h with h
    rw [← h]; simp
  · exact Option.noConfusion h

/-- The hidden-layer loop never faults when every layer in it expects
`hsize*2 + init` inputs and the running activations both have width
`hsize`; the resulting pair again has widths `hsize`, `hsize`. -/
theorem hiddenPass_total (act : ℝ → ℝ) (x : List ℝ) (hsize init : ℕ)
    (hx : x.length = init) :
    ∀ L : List Linear,
      (∀ l ∈ L, l.inFeatures = hsize * 2 + init ∧ l.outFeatures = hsize) →
      ∀ cur prev : List ℝ, cur.length = hsize → prev.length = hsize →
        ∃ cp : List ℝ × List ℝ,
          SkipConn.hiddenPass act x L (cur, prev) = some cp ∧
            cp.1.length = hsize ∧ cp.2.length = hsize := by
  intro L
  induction L with
  | nil =>
    intro _ cur prev hc hp
    exact ⟨(cur, prev), rfl, hc, hp⟩
  | cons layer rest ih =>
    intro hL cur prev hc hp
    have h1 := hL layer (List.mem_cons_self _ _)
    have happ : (cur ++ prev ++ x).length = layer.inFeatures := by
      simp [hc, hp, hx, h1.1]; ring
    have hz := Linear.apply_of_length layer _ happ
    set z := (List.range layer.outFeatures).map fun i =>
      (∑ j ∈ Finset.range layer.inFeatures,
        layer.weight i j * (cur ++ prev ++ x).getD j 0) + layer.bias i with hzdef
    have hzlen : z.length = hsize := by simp [hzdef, h1.2]
    obtain ⟨cp, hrec, hc', hp'⟩ :=
      ih (fun l hl => hL l (List.mem_cons_of_mem _ hl)) (z.map act) cur
        (by simp [hzlen]) hc
    refine ⟨cp, ?_, hc', hp'⟩
    simp only [SkipConn.hiddenPass]
    rw [hz]
    simpa using hrec

/-- `forward` without a configured linear map, unfolded one stage. -/
theorem forward_none_linmap (s : SkipConn) (x : List ℝ) (hlin : s.linmap = none) :
    s.forward x = (s.inLayer.apply x).bind fun z =>
      (SkipConn.hiddenPass s.activation x s.hidden (z.map s.activation, ([] : List ℝ))).bind fun cp =>
      (s.outLayer.apply (cp.1 ++ cp.2 ++ x)).map fun y =>
        y.map fun v => (Real.tanh v + 1) / 2 := by
  unfold SkipConn.forward
  rw [hlin]
  rfl

/-- A `SkipConn` built by `__init__` with at least one hidden layer and
no linear map never faults on an input row of width `init_size`, and its
output row has exactly one entry. -/
theorem skipConn_make_forward_total (h m init : ℕ)
    (act : ℝ → ℝ) (W : ℕ → ℕ → ℕ → ℝ) (B : ℕ → ℕ → ℝ)
    (x : List ℝ) (hx : x.length = init) :
    ∃ out : List ℝ,
      (SkipConn.make h (m + 1) init none act W B).forward x = some out ∧
        out.length = 1 := by
  rw [forward_none_linmap _ x rfl]
  have hxin : x.length = (SkipConn.make h (m + 1) init none act W B).inLayer.inFeatures := by
    simpa [SkipConn.make] using hx
  rw [Linear.apply_of_length _ x hxin, Option.some_bind]
  generalize hz : (List.range (SkipConn.make h (m + 1) init none act W B).inLayer.outFeatures).map
      (fun i => (∑ j ∈ Finset.range (SkipConn.make h (m + 1) init none act W B).inLayer.inFeatures,
        (SkipConn.make h (m + 1) init none act W B).inLayer.weight i j * x.getD j 0)
        + (SkipConn.make h (m + 1) init none act W B).inLayer.bias i) = z₀
  have hz₀len : z₀.length = h := by rw [← hz]; simp [SkipConn.make]
  have hact : (SkipConn.make h (m + 1) init none act W B).activation = act := rfl
  have hhid : (SkipConn.make h (m + 1) init none act W B).hidden
      = (⟨h + init, h, W 1, B 1⟩ : Linear) ::
        (List.range m).map (fun i => (⟨h * 2 + init, h, W (i + 2), B (i + 2)⟩ : Linear)) := by
    simp only [SkipConn.make, List.range_succ_eq_map, List.map_cons, List.map_map]
    refine congrArg₂ List.cons (by norm_num) ?_
    apply List.map_congr_left
    intro i _
    simp [Function.comp, Nat.succ_eq_add_one]
  have happ1 : ((z₀.map act) ++ ([] : List ℝ) ++ x).length
      = (⟨h + init, h, W 1, B 1⟩ : Linear).inFeatures := by
    simp [hz₀len, hx]
  have h1 := Linear.apply_of_length _ _ happ1
  generalize hz1 : (List.range (⟨h + init, h, W 1, B 1⟩ : Linear).outFeatures).map
      (fun i => (∑ j ∈ Finset.range (⟨h + init, h, W 1, B 1⟩ : Linear).inFeatures,
        (⟨h + init, h, W 1, B 1⟩ : Linear).weight i j * ((z₀.map act) ++ ([] : List ℝ) ++ x).getD j 0)
        + (⟨h + init, h, W 1, B 1⟩ : Linear).bias i) = z₁ at h1
  have hz₁len : z₁.length = h := by rw [← hz1]; simp
  have htail : ∀ l ∈ (List.range m).map
      (fun i => (⟨h * 2 + init, h, W (i + 2), B (i + 2)⟩ : Linear)),
      l.inFeatures = h * 2 + init ∧ l.outFeatures = h := by
    intro l hl
    obtain ⟨i, _, rfl⟩ := List.mem_map.mp hl
    exact ⟨rfl, rfl⟩
  obtain ⟨cp, hcp, hcp1, hcp2⟩ := hiddenPass_total act x h init hx _ htail
    (z₁.map act) (z₀.map act) (by simp [hz₁len]) (by simp [hz₀len])
  have hp : SkipConn.hiddenPass act x (SkipConn.make h (m + 1) init none act W B).hidden
      (z₀.map act, ([] : List ℝ)) = some cp := by
    rw [hhid]
    simp only [SkipConn.hiddenPass]
    rw [h1]
    simpa using hcp
  rw [hact, hp, Option.some_bind]
  have hout : (cp.1 ++ cp.2 ++ x).length
      = (SkipConn.make h (m + 1) init none act W B).outLayer.inFeatures := by
    simp [SkipConn.make, hcp1, hcp2, hx]
    ring
  rw [Linear.apply_of_length _ _ hout]
  exact ⟨_, rfl, by simp [SkipConn.make]⟩

/-- A row whose width disagrees with the input layer faults the whole
forward pass. -/
theorem skipConn_forward_none_of_bad_width (s : SkipConn) (x : List ℝ)
    (hlin : s.linmap = none) (hx : x.length ≠ s.inLayer.inFeatures) :
    s.forward x = none := by
  rw [forward_none_linmap s x hlin, Linear.apply_of_length_ne s.inLayer x hx]
  rfl

/-- Flattening constant-width chunks multiplies the widths. -/
theorem flatMap_const_length {α β : Type} (f : α → List β) (c : ℕ) (l : List α)
    (hf : ∀ a ∈ l, (f a).length = c) : (l.flatMap f).length = l.length * c := by
  induction l with
  | nil => simp
  | cons a t ih =>
    simp only [List.flatMap_cons, List.length_append, List.length_cons]
    rw [hf a (List.mem_cons_self _ _), ih fun b hb => hf b (List.mem_cons_of_mem _ hb)]
    ring

/-- The flattened Fourier feature row is `2*K + 1` entries per input
scalar. -/
theorem fourierFeatures_length (orders : List ℝ) (x : List ℝ) :
    (fourierFeatures orders x).length = x.length * (2 * orders.length + 1) := by
  unfold fourierFeatures
  apply flatMap_const_length
  intro a _
  simp
  ring

/-- `Fourier.forward` without a linear map delegates the feature row to
the inner `SkipConn`. -/
theorem fourier_forward_none_linmap (f : Fourier) (x : List ℝ) (hlin : f.linmap = none) :
    f.forward x = f.inner_model.forward (fourierFeatures f.orders x) := by
  unfold Fourier.forward
  rw [hlin]
  rfl

/-- Every entry of a successful `SkipConn.forward` output is
`(tanh y + 1)/2` for some real `y`, hence lies strictly between 0 and 1. -/
theorem skipConn_forward_mem_Ioo (s : SkipConn) (x out : List ℝ)
    (hf : s.forward x = some out) :
    ∀ v ∈ out, 0 < v ∧ v < 1 := by
  unfold SkipConn.forward at hf
  obtain ⟨x', _, hf⟩ := Option.bind_eq_some.mp hf
  obtain ⟨z, _, hf⟩ := Option.bind_eq_some.mp hf
  obtain ⟨cp, _, hf⟩ := Option.bind_eq_some.mp hf
  obtain ⟨y, _, hout⟩ := Option.map_eq_some'.mp hf
  subst hout
  intro v hv
  obtain ⟨u, _, rfl⟩ := List.mem_map.mp hv
  constructor
  · have := neg_one_lt_tanh u
    linarith
  · have := tanh_lt_one u
    linarith

/- ### Claim theorems -/

/-- C3: for every `xmin < xmax`, `ymin < ymax` and optional target
sizes, the constructed `CenteredLinearMap` has, per axis, scale
`size/(max-min)` when a target size is given and `1` otherwise, and
offset `-(min+max)*scale/2`; `map` computes `scale ⊙ x + offset`; in
particular for `xmin = -2.5`, `xmax = 1.0`, `x_size = None` the x-axis
scale is `1` and the x-axis offset is `0.75`. -/
theorem claim_C3_centered_linear_map (xmin xmax ymin ymax : ℝ)
    (x_size y_size : Option ℝ) (uc : Bool)
    (hx : xmin < xmax) (hy : ymin < ymax) :
    (∀ s, x_size = some s →
      (CenteredLinearMap.make xmin xmax ymin ymax x_size y_size uc).m.1
        = s / (xmax - xmin)) ∧
    (x_size = none →
      (CenteredLinearMap.make xmin xmax ymin ymax x_size y_size uc).m.1 = 1) ∧
    (∀ s, y_size = some s →
      (CenteredLinearMap.make xmin xmax ymin ymax x_size y_size uc).m.2
        = s / (ymax - ymin)) ∧
    (y_size = none →
      (CenteredLinearMap.make xmin xmax ymin ymax x_size y_size uc).m.2 = 1) ∧
    (CenteredLinearMap.make xmin xmax ymin ymax x_size y_size uc).b.1
      = -(xmin + xmax) * (CenteredLinearMap.make xmin xmax ymin ymax x_size y_size uc).m.1 / 2 ∧
    (CenteredLinearMap.make xmin xmax ymin ymax x_size y_size uc).b.2
      = -(ymin + ymax) * (CenteredLinearMap.make xmin xmax ymin ymax x_size y_size uc).m.2 / 2 ∧
    (∀ v : ℝ × ℝ, (CenteredLinearMap.make xmin xmax ymin ymax x_size y_size uc).mapPair v
      = ((CenteredLinearMap.make xmin xmax ymin ymax x_size y_size uc).m.1 * v.1
          + (CenteredLinearMap.make xmin xmax ymin ymax x_size y_size uc).b.1,
         (CenteredLinearMap.make xmin xmax ymin ymax x_size y_size uc).m.2 * v.2
          + (CenteredLinearMap.make xmin xmax ymin ymax x_size y_size uc).b.2)) ∧
    (CenteredLinearMap.make (-2.5) 1 ymin ymax none y_size uc).m.1 = 1 ∧
    (CenteredLinearMap.make (-2.5) 1 ymin ymax none y_size uc).b.1 = 0.75 := by
  refine ⟨?_, ?_, ?_, ?_, ?_, ?_, ?_, ?_, ?_⟩
  · rintro s rfl
    simp [CenteredLinearMap.make]
  · rintro rfl
    simp [CenteredLinearMap.make]
  · rintro s rfl
    cases x_size <;> simp [CenteredLinearMap.make]
  · rintro rfl
    cases x_size <;> simp [CenteredLinearMap.make]
  · cases x_size <;> simp [CenteredLinearMap.make]
  · cases x_size <;> cases y_size <;> simp [CenteredLinearMap.make]
  · intro v
    rfl
  · simp [CenteredLinearMap.make]
  · cases y_size <;> simp [CenteredLinearMap.make] <;> norm_num

/-- C3 witness: the theorem applied at the source defaults
`xmin = -2.5, xmax = 1.0, ymin = -1.1, ymax = 1.1`, no target sizes. -/
theorem claim_C3_witness :
    (CenteredLinearMap.make (-2.5) 1 (-1.1) 1.1 none none false).m.1 = 1 ∧
    (CenteredLinearMap.make (-2.5) 1 (-1.1) 1.1 none none false).b.1 = 0.75 :=
  ⟨(claim_C3_centered_linear_map (-2.5) 1 (-1.1) 1.1 none none false
      (by norm_num) (by norm_num)).2.2.2.2.2.2.2.1,
   (claim_C3_centered_linear_map (-2.5) 1 (-1.1) 1.1 none none false
      (by norm_num) (by norm_num)).2.2.2.2.2.2.2.2⟩

/-- C6: `Fourier2D` at `fourier_order = 1` expands any 2-axis point into
exactly the two raw inputs plus the four order-(0,0) cross products,
whose values are `cos·cos = 1`, `cos·sin = 0`, `sin·cos = 0`,
`sin·sin = 0` — width 6 — and hands that row to its inner `SkipConn`. -/
theorem claim_C6_fourier2d_order_one (h nhl : ℕ)
    (W : ℕ → ℕ → ℕ → ℝ) (B : ℕ → ℕ → ℝ) (x0 x1 : ℝ) :
    fourier2DFeaturesPair (Fourier2D.make 1 h nhl none W B).orders (x0, x1)
      = [x0, x1, 1, 0, 0, 0] ∧
    (fourier2DFeaturesPair (Fourier2D.make 1 h nhl none W B).orders (x0, x1)).length = 6 ∧
    (Fourier2D.make 1 h nhl none W B).forward (x0, x1)
      = (Fourier2D.make 1 h nhl none W B).inner_model.forward [x0, x1, 1, 0, 0, 0] := by
  have hfeat : fourier2DFeaturesPair (Fourier2D.make 1 h nhl none W B).orders (x0, x1)
      = [x0, x1, 1, 0, 0, 0] := by
    simp [Fourier2D.make, fourier2DOrders, fourier2DFeaturesPair, List.range_succ]
  refine ⟨hfeat, by rw [hfeat]; rfl, ?_⟩
  show (Fourier2D.make 1 h nhl none W B).inner_model.forward
      (fourier2DFeaturesPair (Fourier2D.make 1 h nhl none W B).orders (x0, x1)) = _
  rw [hfeat]

/-- C7: the `Taylor` wrapper with `taylor_order = 0` degenerates to the
identity feature expansion and passes the raw input row, unchanged, to
its inner `SkipConn`. -/
theorem claim_C7_taylor_order_zero (h nhl : ℕ)
    (W : ℕ → ℕ → ℕ → ℝ) (B : ℕ → ℕ → ℝ) (x : List ℝ) :
    taylorFeatures 0 x = x ∧
    (Taylor.make 0 h nhl none W B).forward x
      = (Taylor.make 0 h nhl none W B).inner_model.forward x := by
  have hfeat : taylorFeatures 0 x = x := by simp [taylorFeatures]
  refine ⟨hfeat, ?_⟩
  show (Taylor.make 0 h nhl none W B).inner_model.forward (taylorFeatures 0 x) = _
  rw [hfeat]

/-- C8: a forward call is a pure function of the input and the current
weights: repeated `map` calls return the same value, and the
device-placement mutation inside `map` changes no numeric scale or
offset and is idempotent; `SkipConn.forward` is deterministic. -/
theorem claim_C8_forward_pure (lm : CenteredLinearMap) (x : ℝ × ℝ)
    (s : SkipConn) (xs : List ℝ) :
    (lm.mapState x).1.m = lm.m ∧
    (lm.mapState x).1.b = lm.b ∧
    ((lm.mapState x).1.mapState x).2 = (lm.mapState x).2 ∧
    ((lm.mapState x).1.mapState x).1 = (lm.mapState x).1 ∧
    s.forward xs = s.forward xs := by
  obtain ⟨m, b, uc, oc⟩ := lm
  refine ⟨?_, ?_, ?_, ?_, rfl⟩ <;>
    cases uc <;>
    simp [CenteredLinearMap.mapState, CenteredLinearMap.placed, CenteredLinearMap.mapPair]

/-- C1 is false on the code: with `num_hidden_layers = 0` the output
layer is sized for `hidden_size*2 + init_size` inputs but receives only
`hidden_size + init_size` (`prev` is empty and no hidden layer ever ran),
so `forward` raises a shape fault instead of returning an `[N, 1]`
batch.  Concretely, `SkipConn(hidden_size=1, num_hidden_layers=0,
init_size=2)` faults on the one-row batch `[[0, 0]]`. -/
theorem claim_C1_counterexample :
    SkipConn.forwardBatch (SkipConn.make 1 0 2 none gelu W0 B0) [[0, 0]] = none := by
  have hrow : SkipConn.forward (SkipConn.make 1 0 2 none gelu W0 B0) [0, 0] = none := by
    simp [SkipConn.forward, SkipConn.make, SkipConn.hiddenPass, Linear.apply]
  simp [SkipConn.forwardBatch, List.mapM, List.mapM.loop, hrow]

/-- C1 (amended): a `SkipConn` with `num_hidden_layers = 0` and
`hidden_size ≥ 1` never produces an output: the output layer consumes
`concat(cur, prev, x)` with `cur` the input-layer activation and `prev`
empty, which has `hidden_size + init_size` entries, while the layer is
sized for `hidden_size*2 + init_size`, so every forward call on a row of
the configured width faults. -/
theorem claim_C1_num_hidden_layers_zero_faults (h init : ℕ) (hh : 1 ≤ h)
    (act : ℝ → ℝ) (W : ℕ → ℕ → ℕ → ℝ) (B : ℕ → ℕ → ℝ) (x : List ℝ)
    (hx : x.length = init) :
    (SkipConn.make h 0 init none act W B).forward x = none := by
  rw [forward_none_linmap _ x rfl]
  have hxin : x.length = (SkipConn.make h 0 init none act W B).inLayer.inFeatures := by
    simpa [SkipConn.make] using hx
  rw [Linear.apply_of_length _ x hxin, Option.some_bind]
  have hhid : (SkipConn.make h 0 init none act W B).hidden = [] := by
    simp [SkipConn.make]
  rw [hhid]
  simp only [SkipConn.hiddenPass, Option.some_bind]
  rw [Linear.apply_of_length_ne]
  · rfl
  · simp [SkipConn.make, hx]
    omega

/-- C1 witness: the amended theorem applied at
`hidden_size = 1, init_size = 2` with zero weights on the row `[0, 0]`. -/
theorem claim_C1_witness :
    1 ≤ 1 ∧ SkipConn.forward (SkipConn.make 1 0 2 none gelu W0 B0) [0, 0] = none :=
  ⟨le_refl 1,
   claim_C1_num_hidden_layers_zero_faults 1 2 (le_refl 1) gelu W0 B0 [0, 0] (by simp)⟩

/-- C2: whenever any of the four model variants returns an output row,
every entry of it is `(tanh y + 1)/2` for the output-layer value `y` and
so lies in the open interval `(0, 1)`, hence also in the closed interval
`[0, 1]`. -/
theorem claim_C2_output_in_unit_interval :
    (∀ (s : SkipConn) (x out : List ℝ), s.forward x = some out →
      ∀ v ∈ out, v ∈ Set.Ioo (0 : ℝ) 1 ∧ v ∈ Set.Icc (0 : ℝ) 1) ∧
    (∀ (f : Fourier) (x out : List ℝ), f.forward x = some out →
      ∀ v ∈ out, v ∈ Set.Ioo (0 : ℝ) 1 ∧ v ∈ Set.Icc (0 : ℝ) 1) ∧
    (∀ (f : Fourier2D) (x : ℝ × ℝ) (out : List ℝ), f.forward x = some out →
      ∀ v ∈ out, v ∈ Set.Ioo (0 : ℝ) 1 ∧ v ∈ Set.Icc (0 : ℝ) 1) ∧
    (∀ (t : Taylor) (x out : List ℝ), t.forward x = some out →
      ∀ v ∈ out, v ∈ Set.Ioo (0 : ℝ) 1 ∧ v ∈ Set.Icc (0 : ℝ) 1) := by
  have hs : ∀ (s : SkipConn) (x out : List ℝ), s.forward x = some out →
      ∀ v ∈ out, v ∈ Set.Ioo (0 : ℝ) 1 ∧ v ∈ Set.Icc (0 : ℝ) 1 := by
    intro s x out hf v hv
    obtain ⟨h0, h1⟩ := skipConn_forward_mem_Ioo s x out hf v hv
    exact ⟨Set.mem_Ioo.mpr ⟨h0, h1⟩, Set.mem_Icc.mpr ⟨le_of_lt h0, le_of_lt h1⟩⟩
  refine ⟨hs, ?_, ?_, ?_⟩
  · intro f x out hf
    unfold Fourier.forward at hf
    obtain ⟨x', _, hf⟩ := Option.bind_eq_some.mp hf
    exact hs _ _ _ hf
  · intro f x out hf
    exact hs _ _ _ hf
  · intro t x out hf
    unfold Taylor.forward at hf
    obtain ⟨x', _, hf⟩ := Option.bind_eq_some.mp hf
    exact hs _ _ _ hf

/-- C2 witness: a zero-initialized
`SkipConn(hidden_size=1, num_hidden_layers=1, init_size=2)` with
identity activation maps `[0, 0]` to the single value `(tanh 0 + 1)/2`,
which the theorem places inside `(0, 1)` and `[0, 1]`. -/
theorem claim_C2_witness :
    SkipConn.forward (SkipConn.make 1 1 2 none id W0 B0) [0, 0]
      = some [(Real.tanh 0 + 1) / 2] ∧
    (Real.tanh 0 + 1) / 2 ∈ Set.Ioo (0 : ℝ) 1 ∧
    (Real.tanh 0 + 1) / 2 ∈ Set.Icc (0 : ℝ) 1 := by
  have hf : SkipConn.forward (SkipConn.make 1 1 2 none id W0 B0) [0, 0]
      = some [(Real.tanh 0 + 1) / 2] := by
    simp [SkipConn.forward, SkipConn.make, SkipConn.hiddenPass, Linear.apply, W0, B0,
      List.range_succ]
  have hm := claim_C2_output_in_unit_interval.1 (SkipConn.make 1 1 2 none id W0 B0)
    [0, 0] [(Real.tanh 0 + 1) / 2] hf ((Real.tanh 0 + 1) / 2) (List.mem_singleton.mpr rfl)
  exact ⟨hf, hm.1, hm.2⟩

/-- C4: in a `SkipConn` with at least one hidden layer, hidden layer `i`
is sized for the concatenation `[cur, prev, x]`: input width
`2*hidden_size + init_size` for every `i > 0` and
`hidden_size + init_size` for `i = 0`; the output layer is sized for the
same triple concatenation, width `2*hidden_size + init_size`. -/
theorem claim_C4_layer_widths (h nhl init : ℕ) (hn : 1 ≤ nhl)
    (lmo : Option CenteredLinearMap) (act : ℝ → ℝ)
    (W : ℕ → ℕ → ℕ → ℝ) (B : ℕ → ℕ → ℝ) :
    (SkipConn.make h nhl init lmo act W B).hidden.length = nhl ∧
    (∀ i (hi : i < (SkipConn.make h nhl init lmo act W B).hidden.length),
      ((SkipConn.make h nhl init lmo act W B).hidden[i]).inFeatures
        = if 0 < i then 2 * h + init else h + init) ∧
    (SkipConn.make h nhl init lmo act W B).outLayer.inFeatures = 2 * h + init := by
  refine ⟨by simp [SkipConn.make], ?_, by simp [SkipConn.make]; ring⟩
  intro i hi
  simp only [SkipConn.make, List.getElem_map, List.getElem_range]
  split <;> ring

/-- C4 witness: the theorem at
`hidden_size = 1, num_hidden_layers = 2, init_size = 2`; layer 0 takes
`1 + 2` inputs, layer 1 takes `2*1 + 2`, the output layer `2*1 + 2`. -/
theorem claim_C4_witness :
    (SkipConn.make 1 2 2 none gelu W0 B0).hidden.length = 2 ∧
    (SkipConn.make 1 2 2 none gelu W0 B0).outLayer.inFeatures = 2 * 1 + 2 :=
  ⟨(claim_C4_layer_widths 1 2 2 (by norm_num) none gelu W0 B0).1,
   (claim_C4_layer_widths 1 2 2 (by norm_num) none gelu W0 B0).2.2⟩

/-- C5: the `Fourier` wrapper's harmonic frequencies are exactly the
integers `1..K`; on a 2-axis row `[a, b]` the feature expansion emits,
per scalar `v`, the blocks `sin(k*v)` and `cos(k*v)` for `k = 1..K`
followed by the raw `v`, giving width `4*K + 2`, and `forward` delegates
that row to the inner `SkipConn`, which is configured with
`init_size = 4*K + 2`. -/
theorem claim_C5_fourier_features (K h nhl : ℕ) (hK : 1 ≤ K)
    (W : ℕ → ℕ → ℕ → ℝ) (B : ℕ → ℕ → ℝ) (a b : ℝ) :
    (Fourier.make K h nhl none W B).orders.length = K ∧
    (∀ i (hi : i < (Fourier.make K h nhl none W B).orders.length),
      (Fourier.make K h nhl none W B).orders[i] = (i : ℝ) + 1) ∧
    (Fourier.make K h nhl none W B).inner_model.inLayer.inFeatures = 4 * K + 2 ∧
    fourierFeatures (Fourier.make K h nhl none W B).orders [a, b]
      = ((List.range K).map fun k : ℕ => Real.sin (((k : ℝ) + 1) * a))
        ++ ((List.range K).map fun k : ℕ => Real.cos (((k : ℝ) + 1) * a)) ++ [a]
        ++ (((List.range K).map fun k : ℕ => Real.sin (((k : ℝ) + 1) * b))
          ++ ((List.range K).map fun k : ℕ => Real.cos (((k : ℝ) + 1) * b)) ++ [b]) ∧
    (fourierFeatures (Fourier.make K h nhl none W B).orders [a, b]).length = 4 * K + 2 ∧
    (∀ x : List ℝ, (Fourier.make K h nhl none W B).forward x
      = (Fourier.make K h nhl none W B).inner_model.forward
          (fourierFeatures (Fourier.make K h nhl none W B).orders x)) := by
  have horders : (Fourier.make K h nhl none W B).orders
      = (List.range K).map fun k : ℕ => (k : ℝ) + 1 := rfl
  refine ⟨by simp [horders], ?_, by simp [Fourier.make, SkipConn.make]; ring, ?_, ?_, ?_⟩
  · intro i hi
    simp [horders]
  · rw [horders]
    simp [fourierFeatures, List.map_map, Function.comp_def]
  · rw [fourierFeatures_length, horders]
    simp only [List.length_map, List.length_range, List.length_cons,
      List.length_singleton, List.length_nil]
    ring
  · intro x
    exact fourier_forward_none_linmap _ x rfl

/-- C5 witness: the theorem at `K = 1` on the row `[0, 0]`: one harmonic
frequency, inner width `4*1 + 2 = 6`. -/
theorem claim_C5_witness :
    (Fourier.make 1 1 1 none W0 B0).orders.length = 1 ∧
    (Fourier.make 1 1 1 none W0 B0).inner_model.inLayer.inFeatures = 4 * 1 + 2 ∧
    (fourierFeatures (Fourier.make 1 1 1 none W0 B0).orders [0, 0]).length = 4 * 1 + 2 :=
  ⟨(claim_C5_fourier_features 1 1 1 (le_refl 1) W0 B0 0 0).1,
   (claim_C5_fourier_features 1 1 1 (le_refl 1) W0 B0 0 0).2.2.1,
   (claim_C5_fourier_features 1 1 1 (le_refl 1) W0 B0 0 0).2.2.2.2.1⟩

/-- C10: for `taylor_order ≥ 1` the Taylor feature row contains the raw
input twice — its first `init_size` entries (the raw `x` block) equal
its next `init_size` entries (the `x**1` block) — and has total width
`init_size * (taylor_order + 1)`. -/
theorem claim_C10_taylor_duplicate_block (K : ℕ) (hK : 1 ≤ K) (x : List ℝ) :
    (taylorFeatures K x).take x.length = x ∧
    ((taylorFeatures K x).drop x.length).take x.length = x ∧
    (taylorFeatures K x).length = x.length * (K + 1) := by
  obtain ⟨m, rfl⟩ : ∃ m, K = m + 1 := ⟨K - 1, (Nat.succ_pred_eq_of_pos hK).symm⟩
  have hpow1 : (x.map fun v => v ^ (0 + 1)) = x := by
    simp
  refine ⟨?_, ?_, ?_⟩
  · unfold taylorFeatures
    exact List.take_left x _
  · unfold taylorFeatures
    rw [List.drop_left x _, List.range_succ_eq_map, List.flatMap_cons, hpow1]
    exact List.take_left x _
  · unfold taylorFeatures
    rw [List.length_append,
      flatMap_const_length (fun n => x.map fun v => v ^ (n + 1)) x.length _
        (fun a _ => by simp)]
    simp only [List.length_range]
    ring

/-- C10 witness: the theorem at `taylor_order = 1` on the row `[2, 3]`:
the expanded row is `[2, 3, 2, 3]`, both blocks equal the input, width
`2 * 2`. -/
theorem claim_C10_witness :
    1 ≤ 1 ∧
    (taylorFeatures 1 [(2 : ℝ), 3]).take 2 = [(2 : ℝ), 3] ∧
    ((taylorFeatures 1 [(2 : ℝ), 3]).drop 2).take 2 = [(2 : ℝ), 3] ∧
    (taylorFeatures 1 [(2 : ℝ), 3]).length = 2 * (1 + 1) :=
  ⟨le_refl 1,
   (claim_C10_taylor_duplicate_block 1 (le_refl 1) [(2 : ℝ), 3]).1,
   (claim_C10_taylor_duplicate_block 1 (le_refl 1) [(2 : ℝ), 3]).2.1,
   (claim_C10_taylor_duplicate_block 1 (le_refl 1) [(2 : ℝ), 3]).2.2⟩

/-- C9: for `fourier_order = K ≥ 1` (inner network with at least one
hidden layer), `Fourier.forward` on a row of width `D` succeeds exactly
when `D = 2`: the flattened feature width `D*(2*K+1)` matches the inner
`SkipConn`'s configured `init_size = 4*K + 2` precisely for `D = 2`, and
any other width faults at the inner input layer. -/
theorem claim_C9_fourier_width_iff (K h nhl D : ℕ) (hK : 1 ≤ K) (hn : 1 ≤ nhl)
    (W : ℕ → ℕ → ℕ → ℝ) (B : ℕ → ℕ → ℝ) (x : List ℝ) (hx : x.length = D) :
    (Fourier.make K h nhl none W B).forward x ≠ none ↔ D = 2 := by
  obtain ⟨m, rfl⟩ : ∃ m, nhl = m + 1 := ⟨nhl - 1, (Nat.succ_pred_eq_of_pos hn).symm⟩
  have hlen : (fourierFeatures (Fourier.make K h (m + 1) none W B).orders x).length
      = D * (2 * K + 1) := by
    rw [fourierFeatures_length]
    have horders : (Fourier.make K h (m + 1) none W B).orders.length = K := by
      simp [Fourier.make, fourierOrders]
    rw [horders, hx]
  have hinner : (Fourier.make K h (m + 1) none W B).inner_model
      = SkipConn.make h (m + 1) (K * 4 + 2) none leakyRelu W B := rfl
  rw [fourier_forward_none_linmap _ x rfl]
  constructor
  · intro hne
    by_contra hD
    apply hne
    apply skipConn_forward_none_of_bad_width _ _ rfl
    rw [hlen]
    intro hEq
    rw [hinner] at hEq
    have hin : (SkipConn.make h (m + 1) (K * 4 + 2) none leakyRelu W B).inLayer.inFeatures
        = K * 4 + 2 := rfl
    rw [hin] at hEq
    have h2 : D * (2 * K + 1) = 2 * (2 * K + 1) := by rw [hEq]; ring
    exact hD (Nat.eq_of_mul_eq_mul_right (by omega) h2)
  · intro hD
    obtain ⟨out, hout, _⟩ := skipConn_make_forward_total h m (K * 4 + 2) leakyRelu W B
      (fourierFeatures (Fourier.make K h (m + 1) none W B).orders x)
      (by rw [hlen, hD]; ring)
    rw [hinner, hout]
    simp

/-- C9 witness: `Fourier(fourier_order=1)` over a one-hidden-layer inner
network accepts the width-2 row `[0, 0]` without a fault. -/
theorem claim_C9_witness :
    (Fourier.make 1 1 1 none W0 B0).forward [0, 0] ≠ none :=
  (claim_C9_fourier_width_iff 1 1 1 2 (le_refl 1) (le_refl 1) W0 B0 [0, 0] rfl).mpr rfl

end NNFace
